import Mathlib

/-!
Verification of the selection store and returns/correlation engine of the
market dashboard (src/dashboardv5.py), as a shallow embedding in Lean.

Python dictionaries are modelled as association lists (key order = insertion
order, as in Python); floats are modelled as exact rationals, with NaN
("not available") modelled by an Option; the Pearson correlation, which
involves a square root, is valued in the reals.
-/

namespace Dashboard

/-! ### Association-list model of Python dict operations -/

/-- d[k] lookup returning an Option (None when the key is absent). -/
def lookupA {α : Type} (k : String) (d : List (String × α)) : Option α :=
  (d.find? (fun p => p.1 == k)).map Prod.snd

/-- d[k] = v : updates the value in place when the key is present
(keeping its position, as Python dicts do), otherwise appends the new
key at the end. -/
def setA {α : Type} (k : String) (v : α) (d : List (String × α)) : List (String × α) :=
  if d.any (fun p => p.1 == k) then
    d.map (fun p => if p.1 == k then (k, v) else p)
  else
    d ++ [(k, v)]

/-- del d[k] : drops every binding of key k. -/
def delA {α : Type} (k : String) (d : List (String × α)) : List (String × α) :=
  d.filter (fun p => !(p.1 == k))

/-- Keys of an association list are pairwise distinct (always true of an
actual Python dict). -/
def nodupKeys {α : Type} (d : List (String × α)) : Prop :=
  (d.map Prod.fst).Nodup

/-! ### Selection store (add_to_selection / remove_from_selection /
get_all_selected_items, src/dashboardv5.py lines 396-432) -/

/-- One entry of a selection list: {"ticker": ..., "display_name": ...}. -/
structure Item where
  ticker : String
  display : String
deriving DecidableEq, Repr

/-- region -> category(index) -> list of items. -/
abbrev CatMap := List (String × List Item)

/-- The nested selection dictionary. -/
abbrev Tree := List (String × CatMap)

/-- Both levels of the tree have distinct keys, as Python dicts do. -/
def treeWF (t : Tree) : Prop :=
  nodupKeys t ∧ ∀ p ∈ t, nodupKeys p.2

/-- The item built for a ticker: display_name_func(ticker) when a function
is supplied, else the ticker itself. -/
def mkItem (f : Option (String → String)) (t : String) : Item :=
  match f with
  | some g => { ticker := t, display := g t }
  | none => { ticker := t, display := t }

/-- One loop iteration of add_to_selection: append unless the very same
item (ticker and display name) is already present. -/
def addTicker (acc : List Item) (it : Item) : List Item :=
  if it ∈ acc then acc else acc ++ [it]

/-- add_to_selection: create the region / index keys on demand, then append
each constructed item not already present in the list. -/
def add_to_selection (tree : Tree) (region index : String) (tickers : List String)
    (f : Option (String → String)) : Tree :=
  let rm := (lookupA region tree).getD []
  let l := (lookupA index rm).getD []
  let l2 := tickers.foldl (fun acc t => addTicker acc (mkItem f t)) l
  setA region (setA index l2 rm) tree

/-- The body of remove_from_selection once both keys were found: keep the
items whose ticker is not being removed, delete the index key when the kept
list is empty, then delete the region key when its mapping becomes empty. -/
def removeCore (tree : Tree) (region index : String) (tickers : List String)
    (rm : CatMap) (l : List Item) : Tree :=
  let keep := l.filter (fun it => !(tickers.contains it.ticker))
  let rm2 := if keep.isEmpty then delA index rm else setA index keep rm
  if rm2.isEmpty then delA region tree else setA region rm2 tree

/-- remove_from_selection: filter out the given tickers from
tree[region][index]; prune newly-empty containers; no-op when the region
or index key is absent. -/
def remove_from_selection (tree : Tree) (region index : String)
    (tickers : List String) : Tree :=
  match lookupA region tree with
  | none => tree
  | some rm =>
    match lookupA index rm with
    | none => tree
    | some l => removeCore tree region index tickers rm l

/-- One flattened record {region, index, ticker, display_name}. -/
structure FlatItem where
  region : String
  index : String
  ticker : String
  display : String
deriving DecidableEq, Repr

/-- get_all_selected_items: flatten the tree in (region, index, list)
iteration order. -/
def get_all_selected_items (tree : Tree) : List FlatItem :=
  tree.flatMap (fun p =>
    p.2.flatMap (fun q =>
      q.2.map (fun it => ⟨p.1, q.1, it.ticker, it.display⟩)))

/-! ### Operation sequences for the pruning invariant -/

/-- A user action on the selection tree. -/
inductive Op where
  | add (region index : String) (tickers : List String) (f : Option (String → String))
  | remove (region index : String) (tickers : List String)

/-- Apply one action. -/
def applyOp (t : Tree) : Op → Tree
  | Op.add r i ts f => add_to_selection t r i ts f
  | Op.remove r i ts => remove_from_selection t r i ts

/-- Run a sequence of actions starting from the empty tree (the session
start state). -/
def applyOps (ops : List Op) : Tree :=
  ops.foldl applyOp []

/-- The pruning invariant: no region maps to an empty category mapping and
no category maps to an empty entry list. -/
def prunedTree (t : Tree) : Prop :=
  ∀ p ∈ t, p.2 ≠ [] ∧ ∀ q ∈ p.2, q.2 ≠ []

instance (t : Tree) : Decidable (prunedTree t) := by
  unfold prunedTree; infer_instance

instance (t : Tree) : Decidable (treeWF t) := by
  unfold treeWF nodupKeys; infer_instance

/-- An add action that supplies at least one ticker (all in-repo call sites
pass singleton lists). -/
def addsNonEmpty : Op → Prop
  | Op.add _ _ ts _ => ts ≠ []
  | Op.remove _ _ _ => True

/-! ### Equity snapshot computations (get_equity_data, src lines 264-324) -/

/-- The snapshot row {Value, Daily %, 1 Week %, YTD %}. The daily change is
always a number (np.nan never reaches it); the week and YTD changes are
np.nan ("not available") in some branches, modelled by none. -/
structure Snapshot where
  value : ℚ
  daily : ℚ
  week : Option ℚ
  ytd : Option ℚ
deriving DecidableEq, Repr

/-- get_equity_data as a function of the fetched close-price history and the
fetched YTD history (a failed or empty fetch is the empty list). Mirrors the
primary branch of the source: None when fewer than 2 observations, otherwise
daily = (last-prev)/prev*100 when prev > 0 else 0; week = the 6-observation
change when at least 6 observations exist (0 when the denominator is not
positive) else NaN; YTD = the change from the first YTD observation when the
YTD series has at least 2 points and a positive start else NaN. -/
def get_equity_data (hist ytdHist : List ℚ) : Option Snapshot :=
  if hist.length < 2 then none
  else
    let current := hist.getD (hist.length - 1) 0
    let prev := hist.getD (hist.length - 2) 0
    let daily := if 0 < prev then (current - prev) / prev * 100 else 0
    let week : Option ℚ :=
      if 6 ≤ hist.length then
        let w := hist.getD (hist.length - 6) 0
        some (if 0 < w then (current - w) / w * 100 else 0)
      else none
    let ytdPct : Option ℚ :=
      if 2 ≤ ytdHist.length then
        let s := ytdHist.getD 0 0
        if 0 < s then some ((current - s) / s * 100) else none
      else none
    some ⟨current, daily, week, ytdPct⟩

/-- The "Last Change" cell of the central-bank table (get_central_bank_data,
src lines 59-98): a formatted percentage when it is nonzero, the string
"No change" when the computed change is zero (which includes a zero
denominator), and "N/A" when fewer than 2 observations exist. -/
inductive RateChange where
  | pct (q : ℚ)
  | noChange
  | na
deriving DecidableEq, Repr

/-- The central-bank last-change computation on the fetched rate series. -/
def cb_last_change (rates : List ℚ) : RateChange :=
  if rates.length ≤ 1 then RateChange.na
  else
    let current := rates.getD (rates.length - 1) 0
    let prev := rates.getD (rates.length - 2) 0
    let change := if prev ≠ 0 then (current - prev) / prev * 100 else 0
    if change ≠ 0 then RateChange.pct change else RateChange.noChange

/-! ### FX correlation pipeline (render_fx_page tab 4, src lines 1500-1552) -/

/-- A date-indexed series of rationals (a pandas Series: dates strictly
increasing in practice, not needed by the proofs). -/
abbrev Series := List (ℕ × ℚ)

/-- series.pct_change().dropna(): period-over-period fractional change,
first observation dropped. -/
def pctChange (s : Series) : Series :=
  (s.zip s.tail).map (fun pq => (pq.2.1, (pq.2.2 - pq.1.2) / pq.1.2))

/-- Does the series have an observation at this date. -/
def hasDate (s : Series) (d : ℕ) : Bool :=
  s.any (fun p => p.1 == d)

/-- The value of the series at a date (0 as a junk default when absent;
only used at dates present in the series). -/
def valAt (s : Series) (d : ℕ) : ℚ :=
  ((s.find? (fun p => p.1 == d)).map Prod.snd).getD 0

/-- The returns_data dict: for each selected non-USD currency whose fetched
series exists and has more than one observation, its nonempty return
series. -/
def surviving (selected : List String) (fetch : String → Option Series) :
    List (String × Series) :=
  selected.filterMap (fun c =>
    if c == "USD" then none
    else
      match fetch c with
      | none => none
      | some s =>
        if 1 < s.length then
          let r := pctChange s
          if r.isEmpty then none else some (c, r)
        else none)

/-- The index of pd.DataFrame(returns_data).dropna(how="any"): the dates
present in every column (an inner join). -/
def commonDates (cols : List Series) : List ℕ :=
  match cols with
  | [] => []
  | s :: rest => (s.map Prod.fst).filter (fun d => rest.all (fun t => hasDate t d))

/-- returns_df.mean(axis=1) at one date: the cross-sectional arithmetic mean
of the counter columns. -/
def basketAt (cols : List Series) (d : ℕ) : ℚ :=
  ((cols.map (fun s => valAt s d)).sum) / (cols.length : ℚ)

/-- The outcome of the correlation tab: one of the three warning/info
branches (no matrix shown), or a correlation matrix over the given ordered
columns and aligned dates. -/
inductive FxResult where
  | selectMore
  | noData
  | needTwo
  | matrix (cols : List (String × Series)) (dates : List ℕ) (usdIncluded : Bool)
deriving DecidableEq, Repr

/-- Did the tab produce (and render) a correlation matrix. -/
def FxResult.isMatrix : FxResult → Bool
  | FxResult.matrix _ _ _ => true
  | _ => false

/-- The number of columns of the produced matrix (0 when none was). -/
def FxResult.columnCount : FxResult → ℕ
  | FxResult.matrix cols _ _ => cols.length
  | _ => 0

/-- The control flow of the correlation tab, src lines 1520-1552: fewer than
two selected currencies is an info message; an empty returns_data dict is a
warning; fewer than two columns is a warning only when USD is not among the
selected currencies; otherwise the USD basket column is appended when USD is
selected, the columns are reordered by the selection order, and the
correlation matrix is rendered. -/
def render_fx_corr (selected : List String) (fetch : String → Option Series) :
    FxResult :=
  if selected.length ≤ 1 then FxResult.selectMore
  else
    let rd := surviving selected fetch
    if rd.isEmpty then FxResult.noData
    else if rd.length < 2 && !(selected.contains "USD") then FxResult.needTwo
    else
      let counters := rd.map Prod.snd
      let ds := commonDates counters
      let withUsd :=
        if selected.contains "USD" then
          rd ++ [("USD", ds.map (fun d => (d, basketAt counters d)))]
        else rd
      let ordered := selected.filterMap (fun c =>
        (withUsd.find? (fun p => p.1 == c)).map (fun p => (c, p.2)))
      FxResult.matrix ordered ds (selected.contains "USD")

/-! ### Pearson correlation (returns_df.corr()) in exact arithmetic -/

/-- Arithmetic mean of a list of rationals. -/
def qmean (xs : List ℚ) : ℚ :=
  xs.sum / (xs.length : ℚ)

/-- Deviations from the mean. -/
def devs (xs : List ℚ) : List ℚ :=
  xs.map (fun x => x - qmean xs)

/-- Sum of squared deviations (the unnormalised variance; the 1/(n-1)
factors cancel in the correlation). -/
def svar (xs : List ℚ) : ℚ :=
  ((devs xs).map (fun d => d * d)).sum

/-- Sum of products of deviations (the unnormalised covariance). -/
def scov (xs ys : List ℚ) : ℚ :=
  (((devs xs).zip (devs ys)).map (fun p => p.1 * p.2)).sum

/-- Pearson correlation of two aligned columns. A zero variance makes the
float computation produce NaN (pandas leaves the cell NaN), modelled as
none; otherwise the exact real value of cov / (sd_x * sd_y). -/
noncomputable def pearson (xs ys : List ℚ) : Option ℝ :=
  if svar xs = 0 ∨ svar ys = 0 then none
  else some ((scov xs ys : ℝ) / (Real.sqrt (svar xs : ℝ) * Real.sqrt (svar ys : ℝ)))

/-- Column i of the aligned return frame: the series values at the aligned
dates. -/
def alignedColumn (ds : List ℕ) (s : Series) : List ℚ :=
  ds.map (fun d => valAt s d)

/-- Entry (i, j) of returns_df.corr() for the rendered matrix. -/
noncomputable def corrMatrixEntry (cols : List (String × Series)) (ds : List ℕ)
    (i j : ℕ) : Option ℝ :=
  pearson (alignedColumn ds (cols.getD i ("", [])).2)
    (alignedColumn ds (cols.getD j ("", [])).2)

/-! ### Lemmas about the dict model -/

theorem lookupA_mem {α : Type} {k : String} {v : α} {d : List (String × α)}
    (h : lookupA k d = some v) : (k, v) ∈ d := by
  unfold lookupA at h
  cases hf : d.find? (fun p => p.1 == k) with
  | none => rw [hf] at h; simp at h
  | some p =>
    rw [hf] at h
    have hm := List.mem_of_find?_eq_some hf
    have hp := List.find?_some hf
    simp at hp h
    obtain ⟨a, b⟩ := p
    simp at hp h
    subst hp; subst h
    exact hm

theorem lookupA_eq_none_forall {α : Type} {k : String} {d : List (String × α)}
    (h : lookupA k d = none) : ∀ p ∈ d, p.1 ≠ k := by
  unfold lookupA at h
  cases hf : d.find? (fun p => p.1 == k) with
  | none =>
    intro p hp
    have := List.find?_eq_none.mp hf p hp
    simpa using this
  | some p => rw [hf] at h; simp at h

theorem any_key_of_lookupA {α : Type} {k : String} {v : α} {d : List (String × α)}
    (h : lookupA k d = some v) : d.any (fun p => p.1 == k) = true := by
  have hm := lookupA_mem h
  exact List.any_eq_true.mpr ⟨(k, v), hm, by simp⟩

theorem map_set_id {α : Type} {k : String} {v : α} {d : List (String × α)}
    (h : ∀ p ∈ d, p.1 ≠ k) :
    d.map (fun p => if p.1 == k then (k, v) else p) = d := by
  induction d with
  | nil => rfl
  | cons q rest ih =>
    have hq : (q.1 == k) = false := by simpa using h q (by simp)
    simp only [List.map_cons, hq, Bool.false_eq_true, if_false]
    rw [ih (fun p hp => h p (by simp [hp]))]

theorem find_map_set {α : Type} {k : String} {v : α} {d : List (String × α)}
    (h : d.any (fun p => p.1 == k) = true) :
    (d.map (fun p => if p.1 == k then (k, v) else p)).find? (fun p => p.1 == k)
      = some (k, v) := by
  induction d with
  | nil => simp at h
  | cons q rest ih =>
    by_cases hq : q.1 = k
    · simp [hq]
    · have hq' : (q.1 == k) = false := by simpa using hq
      simp only [List.any_cons, hq', Bool.false_or] at h
      simp only [List.map_cons, hq', Bool.false_eq_true, if_false]
      rw [List.find?_cons_of_neg _ (by simp [hq'])]
      exact ih h

theorem find_append_key {α : Type} {k : String} {v : α} {d : List (String × α)}
    (hall : ∀ p ∈ d, (p.1 == k) = false) :
    (d ++ [(k, v)]).find? (fun p => p.1 == k) = some (k, v) := by
  induction d with
  | nil => simp
  | cons q rest ih =>
    have hq := hall q (by simp)
    rw [List.cons_append]
    have hfind : List.find? (fun p => p.1 == k) (q :: (rest ++ [(k, v)]))
        = List.find? (fun p => p.1 == k) (rest ++ [(k, v)]) :=
      List.find?_cons_of_neg _ (by simp [hq])
    rw [hfind]
    exact ih (fun p hp => hall p (by simp [hp]))

theorem lookupA_setA_self {α : Type} {k : String} {v : α} {d : List (String × α)} :
    lookupA k (setA k v d) = some v := by
  unfold setA
  by_cases h : d.any (fun p => p.1 == k) = true
  · rw [if_pos h]
    unfold lookupA
    rw [find_map_set h]
    rfl
  · rw [if_neg h]
    have hall : ∀ p ∈ d, (p.1 == k) = false := by
      intro p hp
      by_contra hc
      exact h (List.any_eq_true.mpr ⟨p, hp, by simpa using hc⟩)
    unfold lookupA
    rw [find_append_key hall]
    rfl

theorem lookupA_setA_ne {α : Type} {k k' : String} {v : α} {d : List (String × α)}
    (hne : k' ≠ k) : lookupA k' (setA k v d) = lookupA k' d := by
  have hkk : ((k : String) == k') = false := by
    simp only [beq_eq_false_iff_ne]
    exact fun hc => hne hc.symm
  unfold setA
  by_cases h : d.any (fun p => p.1 == k) = true
  · rw [if_pos h]
    unfold lookupA
    clear h
    induction d with
    | nil => rfl
    | cons q rest ih =>
      by_cases hq : q.1 = k
      · have h1 : (q.1 == k) = true := by simpa using hq
        have h3 : (q.1 == k') = false := by
          simp only [beq_eq_false_iff_ne]
          rw [hq]
          exact fun hc => hne hc.symm
        simp only [List.map_cons, h1, if_true]
        rw [List.find?_cons_of_neg _ (by simp [hkk]),
          List.find?_cons_of_neg _ (by simp [h3])]
        exact ih
      · have h1 : (q.1 == k) = false := by simpa using hq
        simp only [List.map_cons, h1, Bool.false_eq_true, if_false]
        cases hq' : (q.1 == k') with
        | true =>
          rw [List.find?_cons_of_pos _ (by simp [hq']),
            List.find?_cons_of_pos _ (by simp [hq'])]
        | false =>
          rw [List.find?_cons_of_neg _ (by simp [hq']),
            List.find?_cons_of_neg _ (by simp [hq'])]
          exact ih
  · rw [if_neg h]
    unfold lookupA
    rw [List.find?_append]
    have h2 : (([(k, v)] : List (String × α)).find? (fun p => p.1 == k')) = none := by
      rw [List.find?_cons_of_neg _ (by simp [hkk])]
      rfl
    rw [h2]
    cases d.find? (fun p => p.1 == k') <;> rfl

theorem mem_setA {α : Type} {k : String} {v : α} {p : String × α} {d : List (String × α)}
    (h : p ∈ setA k v d) : p = (k, v) ∨ (p ∈ d ∧ p.1 ≠ k) := by
  unfold setA at h
  by_cases ha : d.any (fun q => q.1 == k) = true
  · rw [if_pos ha] at h
    obtain ⟨q, hq, hfq⟩ := List.mem_map.mp h
    by_cases hqk : q.1 = k
    · left; rw [← hfq]; simp [hqk]
    · right
      rw [← hfq]
      have h1 : (q.1 == k) = false := by simpa using hqk
      simp only [h1, if_false]
      exact ⟨hq, hqk⟩
  · rw [if_neg ha] at h
    rcases List.mem_append.mp h with h1 | h1
    · right
      refine ⟨h1, ?_⟩
      intro hc
      exact ha (List.any_eq_true.mpr ⟨p, h1, by simpa using hc⟩)
    · left; simpa using h1

theorem mem_delA {α : Type} {k : String} {p : String × α} {d : List (String × α)}
    (h : p ∈ delA k d) : p ∈ d ∧ p.1 ≠ k := by
  unfold delA at h
  have := List.mem_filter.mp h
  refine ⟨this.1, ?_⟩
  simpa using this.2

theorem setA_ne_nil {α : Type} {k : String} {v : α} {d : List (String × α)} :
    setA k v d ≠ [] := by
  unfold setA
  by_cases ha : d.any (fun q => q.1 == k) = true
  · rw [if_pos ha]
    intro hc
    rw [List.map_eq_nil_iff] at hc
    subst hc
    simp at ha
  · rw [if_neg ha]
    simp

theorem delA_eq_nil_forall {α : Type} {k : String} {d : List (String × α)}
    (h : delA k d = []) : ∀ p ∈ d, p.1 = k := by
  unfold delA at h
  intro p hp
  have := List.filter_eq_nil_iff.mp h p hp
  simpa using this

theorem lookupA_delA_self {α : Type} {k : String} {d : List (String × α)} :
    lookupA k (delA k d) = none := by
  unfold lookupA
  have h0 : (delA k d).find? (fun p => p.1 == k) = none := by
    rw [List.find?_eq_none]
    intro p hp
    have := (mem_delA hp).2
    simpa using this
  rw [h0]
  rfl

theorem lookupA_delA_ne {α : Type} {k k' : String} {d : List (String × α)}
    (hne : k' ≠ k) : lookupA k' (delA k d) = lookupA k' d := by
  unfold lookupA delA
  induction d with
  | nil => rfl
  | cons q rest ih =>
    by_cases hq : q.1 = k
    · have h1 : (!(q.1 == k)) = false := by simp [hq]
      have h2 : (q.1 == k') = false := by
        simp only [beq_eq_false_iff_ne]
        rw [hq]
        exact fun hc => hne hc.symm
      simp only [List.filter_cons, h1, Bool.false_eq_true, if_false]
      rw [List.find?_cons_of_neg _ (by simp [h2])]
      exact ih
    · have h1 : (!(q.1 == k)) = true := by simpa using hq
      simp only [List.filter_cons, h1, if_true]
      cases hq' : (q.1 == k') with
      | true =>
        rw [List.find?_cons_of_pos _ (by simp [hq']),
          List.find?_cons_of_pos _ (by simp [hq'])]
      | false =>
        rw [List.find?_cons_of_neg _ (by simp [hq']),
          List.find?_cons_of_neg _ (by simp [hq'])]
        exact ih

theorem lookupA_of_mem_nodup {α : Type} {k : String} {v : α} {d : List (String × α)}
    (hnd : nodupKeys d) (hm : (k, v) ∈ d) : lookupA k d = some v := by
  unfold nodupKeys at hnd
  induction d with
  | nil => simp at hm
  | cons q rest ih =>
    simp only [List.map_cons, List.nodup_cons] at hnd
    rcases List.mem_cons.mp hm with h1 | h1
    · unfold lookupA
      rw [← h1]
      simp
    · have hq : q.1 ≠ k := by
        intro hc
        exact hnd.1 (hc ▸ (List.mem_map.mpr ⟨(k, v), h1, rfl⟩))
      unfold lookupA
      rw [List.find?_cons_of_neg _ (by simpa using hq)]
      exact ih hnd.2 h1

theorem map_set_self {α : Type} {k : String} {v : α} {d : List (String × α)} :
    nodupKeys d → lookupA k d = some v →
    d.map (fun p => if p.1 == k then (k, v) else p) = d := by
  induction d with
  | nil => intro _ _; rfl
  | cons q rest ih =>
    intro hnd h
    unfold nodupKeys at hnd
    simp only [List.map_cons, List.nodup_cons] at hnd
    by_cases hq : q.1 = k
    · have h1 : (q.1 == k) = true := by simpa using hq
      have hfind : List.find? (fun p => p.1 == k) (q :: rest) = some q :=
        List.find?_cons_of_pos _ h1
      unfold lookupA at h
      rw [hfind] at h
      simp at h
      have hqv : q = (k, v) := by
        obtain ⟨a, b⟩ := q
        simp only at hq h
        simp [hq, h]
      have htail : List.map (fun p => if p.1 == k then (k, v) else p) rest = rest := by
        apply map_set_id
        intro p hp hc
        apply hnd.1
        rw [hq, ← hc]
        exact List.mem_map.mpr ⟨p, hp, rfl⟩
      simp only [List.map_cons, h1, if_true, htail]
      rw [hqv]
    · have h1 : (q.1 == k) = false := by simpa using hq
      have hfind : List.find? (fun p => p.1 == k) (q :: rest)
          = List.find? (fun p => p.1 == k) rest :=
        List.find?_cons_of_neg _ (by simp [h1])
      unfold lookupA at h
      rw [hfind] at h
      have h' : lookupA k rest = some v := h
      simp only [List.map_cons, h1, Bool.false_eq_true, if_false]
      rw [ih hnd.2 h']

theorem setA_lookup_self {α : Type} {k : String} {v : α} {d : List (String × α)}
    (hnd : nodupKeys d) (h : lookupA k d = some v) : setA k v d = d := by
  unfold setA
  rw [if_pos (any_key_of_lookupA h)]
  exact map_set_self hnd h

/-! ### Lemmas about the selection-store operations -/

theorem remove_eq_of_region_absent {tree : Tree} {r c : String} {ts : List String}
    (h : lookupA r tree = none) : remove_from_selection tree r c ts = tree := by
  unfold remove_from_selection
  rw [h]

theorem remove_eq_of_index_absent {tree : Tree} {r c : String} {ts : List String}
    {rm : CatMap} (h : lookupA r tree = some rm) (h2 : lookupA c rm = none) :
    remove_from_selection tree r c ts = tree := by
  unfold remove_from_selection
  rw [h]
  show (match lookupA c rm with
    | none => tree
    | some l => removeCore tree r c ts rm l) = tree
  rw [h2]

theorem remove_eq_core {tree : Tree} {r c : String} {ts : List String}
    {rm : CatMap} {l : List Item} (h : lookupA r tree = some rm)
    (h2 : lookupA c rm = some l) :
    remove_from_selection tree r c ts = removeCore tree r c ts rm l := by
  unfold remove_from_selection
  rw [h]
  show (match lookupA c rm with
    | none => tree
    | some l => removeCore tree r c ts rm l) = removeCore tree r c ts rm l
  rw [h2]

theorem addTicker_ne_nil (acc : List Item) (it : Item) : addTicker acc it ≠ [] := by
  unfold addTicker
  by_cases hm : it ∈ acc
  · rw [if_pos hm]
    intro hc
    rw [hc] at hm
    simp at hm
  · rw [if_neg hm]
    simp

theorem foldl_addTicker_ne_nil (f : Option (String → String)) (ts : List String)
    (acc : List Item) (h : acc ≠ []) :
    ts.foldl (fun a x => addTicker a (mkItem f x)) acc ≠ [] := by
  induction ts generalizing acc with
  | nil => simpa using h
  | cons t rest ih => exact ih _ (addTicker_ne_nil _ _)

theorem foldl_addTicker_result_ne_nil (f : Option (String → String))
    (ts : List String) (acc : List Item) (h : ts ≠ []) :
    ts.foldl (fun a x => addTicker a (mkItem f x)) acc ≠ [] := by
  cases ts with
  | nil => exact absurd rfl h
  | cons t rest =>
    simp only [List.foldl_cons]
    exact foldl_addTicker_ne_nil f rest _ (addTicker_ne_nil _ _)

theorem add_eq (tree : Tree) (r c : String) (ts : List String)
    (f : Option (String → String)) :
    add_to_selection tree r c ts f
      = setA r (setA c (ts.foldl (fun a x => addTicker a (mkItem f x))
          ((lookupA c ((lookupA r tree).getD [])).getD []))
        ((lookupA r tree).getD [])) tree := rfl

/-- Complete case analysis of removeCore. -/
theorem removeCore_spec (tree : Tree) (r c : String) (ts : List String)
    (rm : CatMap) (l : List Item) :
    ∃ keep, keep = l.filter (fun it => !(ts.contains it.ticker)) ∧
      ((keep = [] ∧ delA c rm = [] ∧
          removeCore tree r c ts rm l = delA r tree) ∨
       (keep = [] ∧ delA c rm ≠ [] ∧
          removeCore tree r c ts rm l = setA r (delA c rm) tree) ∨
       (keep ≠ [] ∧
          removeCore tree r c ts rm l = setA r (setA c keep rm) tree)) := by
  refine ⟨l.filter (fun it => !(ts.contains it.ticker)), rfl, ?_⟩
  have hrc : removeCore tree r c ts rm l
      = (if (if (l.filter (fun it => !(ts.contains it.ticker))).isEmpty
            then delA c rm
            else setA c (l.filter (fun it => !(ts.contains it.ticker))) rm).isEmpty
          then delA r tree
          else setA r (if (l.filter (fun it => !(ts.contains it.ticker))).isEmpty
            then delA c rm
            else setA c (l.filter (fun it => !(ts.contains it.ticker))) rm) tree) :=
    rfl
  by_cases hk : (l.filter (fun it => !(ts.contains it.ticker))).isEmpty = true
  · have hkeq : l.filter (fun it => !(ts.contains it.ticker)) = [] := by
      simpa using hk
    by_cases hd : (delA c rm).isEmpty = true
    · left
      refine ⟨hkeq, by simpa using hd, ?_⟩
      rw [hrc, if_pos hk, if_pos hd]
    · right; left
      refine ⟨hkeq, by simpa using hd, ?_⟩
      rw [hrc, if_pos hk, if_neg hd]
  · right; right
    have hkne : l.filter (fun it => !(ts.contains it.ticker)) ≠ [] := by
      simpa using hk
    refine ⟨hkne, ?_⟩
    rw [hrc, if_neg hk, if_neg ?_]
    simp only [List.isEmpty_iff]
    exact setA_ne_nil

/-- Adding with a nonempty ticker list preserves the pruning invariant. -/
theorem prunedTree_add (t : Tree) (r c : String) (ts : List String)
    (f : Option (String → String)) (hp : prunedTree t) (hts : ts ≠ []) :
    prunedTree (add_to_selection t r c ts f) := by
  rw [add_eq]
  intro p hpmem
  rcases mem_setA hpmem with hcase | hcase
  · subst hcase
    constructor
    · exact setA_ne_nil
    · intro q hq
      rcases mem_setA hq with hc2 | hc2
      · subst hc2
        exact foldl_addTicker_result_ne_nil f ts _ hts
      · cases hlr : lookupA r t with
        | none =>
          rw [hlr] at hc2
          simp at hc2
        | some rm =>
          rw [hlr] at hc2
          exact (hp (r, rm) (lookupA_mem hlr)).2 q (by simpa using hc2.1)
  · exact hp p hcase.1

/-- Removing preserves the pruning invariant. -/
theorem prunedTree_remove (t : Tree) (r c : String) (ts : List String)
    (hp : prunedTree t) : prunedTree (remove_from_selection t r c ts) := by
  cases hlr : lookupA r t with
  | none => rw [remove_eq_of_region_absent hlr]; exact hp
  | some rm =>
    cases hlc : lookupA c rm with
    | none => rw [remove_eq_of_index_absent hlr hlc]; exact hp
    | some l =>
      rw [remove_eq_core hlr hlc]
      obtain ⟨keep, hkeep, hcase⟩ := removeCore_spec t r c ts rm l
      have hrm : ∀ q ∈ rm, q.2 ≠ [] := (hp (r, rm) (lookupA_mem hlr)).2
      rcases hcase with ⟨_, _, heq⟩ | ⟨_, hdne, heq⟩ | ⟨hkne, heq⟩
      · rw [heq]
        intro p hpm
        exact hp p (mem_delA hpm).1
      · rw [heq]
        intro p hpm
        rcases mem_setA hpm with hc2 | hc2
        · subst hc2
          refine ⟨hdne, ?_⟩
          intro q hq
          exact hrm q (mem_delA hq).1
        · exact hp p hc2.1
      · rw [heq]
        intro p hpm
        rcases mem_setA hpm with hc2 | hc2
        · subst hc2
          refine ⟨setA_ne_nil, ?_⟩
          intro q hq
          rcases mem_setA hq with hc3 | hc3
          · subst hc3
            exact hkne
          · exact hrm q hc3.1
        · exact hp p hc2.1

/-- Flatten membership, unpacked. -/
theorem mem_flatten_iff {tree : Tree} {fi : FlatItem} :
    fi ∈ get_all_selected_items tree ↔
      ∃ p ∈ tree, ∃ q ∈ p.2, ∃ it ∈ q.2,
        fi = ⟨p.1, q.1, it.ticker, it.display⟩ := by
  unfold get_all_selected_items
  constructor
  · intro h
    obtain ⟨p, hp, h2⟩ := List.mem_flatMap.mp h
    obtain ⟨q, hq, h3⟩ := List.mem_flatMap.mp h2
    obtain ⟨it, hit, h4⟩ := List.mem_map.mp h3
    exact ⟨p, hp, q, hq, it, hit, h4.symm⟩
  · intro ⟨p, hp, q, hq, it, hit, h4⟩
    exact List.mem_flatMap.mpr ⟨p, hp, List.mem_flatMap.mpr
      ⟨q, hq, List.mem_map.mpr ⟨it, hit, h4.symm⟩⟩⟩

theorem prunedTree_foldl (ops : List Op) : ∀ t, prunedTree t →
    (∀ op ∈ ops, addsNonEmpty op) → prunedTree (ops.foldl applyOp t) := by
  induction ops with
  | nil => intro t hp _; simpa using hp
  | cons op rest ih =>
    intro t hp hall
    simp only [List.foldl_cons]
    apply ih
    · cases op with
      | add r i ts f =>
        exact prunedTree_add t r i ts f hp (hall (Op.add r i ts f) (by simp))
      | remove r i ts => exact prunedTree_remove t r i ts hp
    · intro o ho
      exact hall o (by simp [ho])

/-! ### Claim theorems: selection store -/

/-- Claim C1, counterexample: an entry with ticker "A" (label "X") is
already present, yet adding "A" again with a label function that returns
"Y" appends a second entry with the same ticker and grows the flatten
length from 1 to 2 — duplicate detection compares the whole
{ticker, display_name} item, not the symbol alone. -/
theorem add_duplicate_symbol_cex :
    add_to_selection [("R", [("C", [⟨"A", "X"⟩])])] "R" "C" ["A"]
        (some (fun _ => "Y"))
      = [("R", [("C", [⟨"A", "X"⟩, ⟨"A", "Y"⟩])])] ∧
    (get_all_selected_items [("R", [("C", [⟨"A", "X"⟩])])]).length = 1 ∧
    (get_all_selected_items
        (add_to_selection [("R", [("C", [⟨"A", "X"⟩])])] "R" "C" ["A"]
          (some (fun _ => "Y")))).length = 2 := by
  decide

/-- Claim C1, amended: for a well-formed tree, calling add with a symbol is
a no-op — tree unchanged, hence flatten length unchanged — when the item it
would construct (same symbol AND same computed label) is already present in
the entry list tree[region][category]; dedup is by the (symbol, label)
pair, not by symbol alone. -/
theorem add_duplicate_item_noop (tree : Tree) (r c t : String)
    (f : Option (String → String)) (rm : CatMap) (l : List Item)
    (hwf : treeWF tree) (hr : lookupA r tree = some rm)
    (hc : lookupA c rm = some l) (hmem : mkItem f t ∈ l) :
    add_to_selection tree r c [t] f = tree := by
  rw [add_eq, hr]
  simp only [Option.getD_some]
  rw [hc]
  simp only [Option.getD_some, List.foldl_cons, List.foldl_nil]
  unfold addTicker
  rw [if_pos hmem]
  rw [setA_lookup_self (hwf.2 (r, rm) (lookupA_mem hr)) hc]
  exact setA_lookup_self hwf.1 hr

/-- Witness for the amended C1 at a concrete tree. -/
theorem add_duplicate_item_noop_witness :
    add_to_selection [("R", [("C", [⟨"A", "X"⟩])])] "R" "C" ["A"]
        (some (fun _ => "X"))
      = [("R", [("C", [⟨"A", "X"⟩])])] :=
  add_duplicate_item_noop [("R", [("C", [⟨"A", "X"⟩])])] "R" "C" "A"
    (some (fun _ => "X")) [("C", [⟨"A", "X"⟩])] [⟨"A", "X"⟩]
    (by decide) (by decide) (by decide) (by decide)

/-- Claim C2, counterexample: a single add with an empty ticker list
creates the region and category keys and leaves the category mapped to an
empty list, violating the pruning invariant. -/
theorem empty_add_breaks_pruning_cex :
    applyOps [Op.add "R" "C" [] none] = [("R", [("C", [])])] ∧
    ¬ prunedTree (applyOps [Op.add "R" "C" [] none]) := by
  decide

/-- Claim C2, amended: starting from the empty tree, after any finite
sequence of add and remove operations in which every add supplies at least
one ticker (as every in-repo call site does), no region maps to an empty
category mapping and no category maps to an empty entry list. -/
theorem pruned_after_ops (ops : List Op)
    (h : ∀ op ∈ ops, addsNonEmpty op) : prunedTree (applyOps ops) :=
  prunedTree_foldl ops [] (by intro p hp; simp at hp) h

/-- Witness for the amended C2 on a concrete operation sequence. -/
theorem pruned_after_ops_witness :
    prunedTree (applyOps [Op.add "R" "C" ["A"] none, Op.remove "R" "C" ["B"]]) :=
  pruned_after_ops [Op.add "R" "C" ["A"] none, Op.remove "R" "C" ["B"]]
    (by
      intro op hop
      rcases List.mem_cons.mp hop with rfl | hop2
      · simp [addsNonEmpty]
      · rcases List.mem_cons.mp hop2 with rfl | hop3
        · simp [addsNonEmpty]
        · simp at hop3)

/-- Claim C8: for a well-formed tree, after remove(tree, region, category,
symbols) the flatten yields no record whose region and category are the
removed ones and whose ticker is among the removed symbols; and remove is a
no-op when the region or the category key is absent. -/
theorem remove_then_flatten_spec (tree : Tree) (r c : String) (ts : List String)
    (hwf : treeWF tree) :
    (∀ fi ∈ get_all_selected_items (remove_from_selection tree r c ts),
        fi.region = r → fi.index = c → ¬ fi.ticker ∈ ts) ∧
    (lookupA c ((lookupA r tree).getD []) = none →
      remove_from_selection tree r c ts = tree) := by
  constructor
  · intro fi hfi hreg hidx
    cases hlr : lookupA r tree with
    | none =>
      rw [remove_eq_of_region_absent hlr] at hfi
      obtain ⟨p, hp, q, hq, it, hit, hfieq⟩ := mem_flatten_iff.mp hfi
      rw [hfieq] at hreg
      exact absurd hreg (lookupA_eq_none_forall hlr p hp)
    | some rm =>
      cases hlc : lookupA c rm with
      | none =>
        rw [remove_eq_of_index_absent hlr hlc] at hfi
        obtain ⟨p, hp, q, hq, it, hit, hfieq⟩ := mem_flatten_iff.mp hfi
        rw [hfieq] at hreg hidx
        have hreg' : p.1 = r := hreg
        have hidx' : q.1 = c := hidx
        have hlp : lookupA p.1 tree = some p.2 :=
          lookupA_of_mem_nodup hwf.1 (by simpa using hp)
        rw [hreg', hlr] at hlp
        have hprm : p.2 = rm := by
          injection hlp with h0
          exact h0.symm
        have hndrm : nodupKeys rm := by
          have := hwf.2 p hp
          rwa [hprm] at this
        have hlq : lookupA q.1 rm = some q.2 :=
          lookupA_of_mem_nodup hndrm (by rw [← hprm]; simpa using hq)
        rw [hidx', hlc] at hlq
        exact Option.noConfusion hlq
      | some l =>
        rw [remove_eq_core hlr hlc] at hfi
        obtain ⟨keep, hkeep, hcase⟩ := removeCore_spec tree r c ts rm l
        rcases hcase with ⟨_, _, heq⟩ | ⟨_, _, heq⟩ | ⟨_, heq⟩
        · rw [heq] at hfi
          obtain ⟨p, hp, q, hq, it, hit, hfieq⟩ := mem_flatten_iff.mp hfi
          rw [hfieq] at hreg
          exact absurd hreg (mem_delA hp).2
        · rw [heq] at hfi
          obtain ⟨p, hp, q, hq, it, hit, hfieq⟩ := mem_flatten_iff.mp hfi
          rw [hfieq] at hreg hidx
          have hreg' : p.1 = r := hreg
          have hidx' : q.1 = c := hidx
          rcases mem_setA hp with hc2 | hc2
          · subst hc2
            have hq' : q ∈ delA c rm := hq
            exact absurd hidx' (mem_delA hq').2
          · exact absurd hreg' hc2.2
        · rw [heq] at hfi
          obtain ⟨p, hp, q, hq, it, hit, hfieq⟩ := mem_flatten_iff.mp hfi
          rw [hfieq] at hreg hidx
          rw [hfieq]
          have hreg' : p.1 = r := hreg
          have hidx' : q.1 = c := hidx
          rcases mem_setA hp with hc2 | hc2
          · subst hc2
            have hq' : q ∈ setA c keep rm := hq
            rcases mem_setA hq' with hc3 | hc3
            · subst hc3
              have hit' : it ∈ keep := hit
              rw [hkeep] at hit'
              have := (List.mem_filter.mp hit').2
              show ¬ it.ticker ∈ ts
              simpa using this
            · exact absurd hidx' hc3.2
          · exact absurd hreg' hc2.2
  · intro hnone
    cases hlr : lookupA r tree with
    | none => exact remove_eq_of_region_absent hlr
    | some rm =>
      rw [hlr] at hnone
      exact remove_eq_of_index_absent hlr (by simpa using hnone)

/-- Witness for C8: removing "A" from a category keeps only the other
entry, whose ticker is not among the removed ones; removing with an absent
category key is a no-op. -/
theorem remove_then_flatten_spec_witness :
    ¬ (⟨"R", "C", "B", "B"⟩ : FlatItem).ticker ∈ (["A"] : List String) ∧
    remove_from_selection [("R", [("C", [⟨"A", "A"⟩, ⟨"B", "B"⟩])])] "R" "Z" ["A"]
      = [("R", [("C", [⟨"A", "A"⟩, ⟨"B", "B"⟩])])] :=
  ⟨(remove_then_flatten_spec [("R", [("C", [⟨"A", "A"⟩, ⟨"B", "B"⟩])])]
      "R" "C" ["A"] (by decide)).1 ⟨"R", "C", "B", "B"⟩ (by decide) rfl rfl,
   (remove_then_flatten_spec [("R", [("C", [⟨"A", "A"⟩, ⟨"B", "B"⟩])])]
      "R" "Z" ["A"] (by decide)).2 (by decide)⟩

/-- Claim C9: remove modifies at most tree[region][category] — every other
region key keeps its value, and within the removed region every other
category key keeps its entry list (the region and category keys themselves
are deleted only as the pruning requires). -/
theorem remove_frame_effect (tree : Tree) (r c : String) (ts : List String) :
    (∀ r2, r2 ≠ r →
      lookupA r2 (remove_from_selection tree r c ts) = lookupA r2 tree) ∧
    (∀ c2, c2 ≠ c →
      lookupA c2 ((lookupA r (remove_from_selection tree r c ts)).getD [])
        = lookupA c2 ((lookupA r tree).getD [])) := by
  cases hlr : lookupA r tree with
  | none =>
    rw [remove_eq_of_region_absent hlr]
    exact ⟨fun _ _ => rfl, fun _ _ => by rw [hlr]⟩
  | some rm =>
    cases hlc : lookupA c rm with
    | none =>
      rw [remove_eq_of_index_absent hlr hlc]
      exact ⟨fun _ _ => rfl, fun _ _ => by rw [hlr]⟩
    | some l =>
      rw [remove_eq_core hlr hlc]
      obtain ⟨keep, hkeep, hcase⟩ := removeCore_spec tree r c ts rm l
      rcases hcase with ⟨_, hdel, heq⟩ | ⟨_, _, heq⟩ | ⟨_, heq⟩
      · rw [heq]
        constructor
        · intro r2 hr2
          exact lookupA_delA_ne hr2
        · intro c2 hc2
          rw [lookupA_delA_self]
          simp only [Option.getD_none, Option.getD_some]
          have hall := delA_eq_nil_forall hdel
          have hnone : lookupA c2 rm = none := by
            unfold lookupA
            have h0 : rm.find? (fun p => p.1 == c2) = none := by
              rw [List.find?_eq_none]
              intro p hp
              have := hall p hp
              simp only [this]
              simpa using fun hx => hc2 hx.symm
            rw [h0]
            rfl
          rw [hnone]
          rfl
      · rw [heq]
        constructor
        · intro r2 hr2
          exact lookupA_setA_ne hr2
        · intro c2 hc2
          rw [lookupA_setA_self]
          simp only [Option.getD_some]
          exact lookupA_delA_ne hc2
      · rw [heq]
        constructor
        · intro r2 hr2
          exact lookupA_setA_ne hr2
        · intro c2 hc2
          rw [lookupA_setA_self]
          simp only [Option.getD_some]
          exact lookupA_setA_ne hc2

/-- Witness for C9: removing from region "R" leaves region "S" and the
sibling category "E" untouched. -/
theorem remove_frame_effect_witness :
    lookupA "S" (remove_from_selection
        [("R", [("C", [⟨"A", "A"⟩]), ("E", [⟨"B", "B"⟩])]),
          ("S", [("F", [⟨"G", "G"⟩])])] "R" "C" ["A"])
      = lookupA "S" [("R", [("C", [⟨"A", "A"⟩]), ("E", [⟨"B", "B"⟩])]),
          ("S", [("F", [⟨"G", "G"⟩])])] ∧
    lookupA "E" ((lookupA "R" (remove_from_selection
        [("R", [("C", [⟨"A", "A"⟩]), ("E", [⟨"B", "B"⟩])]),
          ("S", [("F", [⟨"G", "G"⟩])])] "R" "C" ["A"])).getD [])
      = lookupA "E" ((lookupA "R" [("R", [("C", [⟨"A", "A"⟩]), ("E", [⟨"B", "B"⟩])]),
          ("S", [("F", [⟨"G", "G"⟩])])]).getD []) :=
  ⟨(remove_frame_effect [("R", [("C", [⟨"A", "A"⟩]), ("E", [⟨"B", "B"⟩])]),
        ("S", [("F", [⟨"G", "G"⟩])])] "R" "C" ["A"]).1 "S" (by decide),
   (remove_frame_effect [("R", [("C", [⟨"A", "A"⟩]), ("E", [⟨"B", "B"⟩])]),
        ("S", [("F", [⟨"G", "G"⟩])])] "R" "C" ["A"]).2 "E" (by decide)⟩

/-! ### Claim theorems: snapshot computations -/

/-- Evaluation of get_equity_data when at least 2 observations exist. -/
theorem get_equity_data_eq (hist ytdHist : List ℚ) (h : ¬ hist.length < 2) :
    get_equity_data hist ytdHist = some ⟨hist.getD (hist.length - 1) 0,
      (if 0 < hist.getD (hist.length - 2) 0
        then (hist.getD (hist.length - 1) 0 - hist.getD (hist.length - 2) 0)
          / hist.getD (hist.length - 2) 0 * 100 else 0),
      (if 6 ≤ hist.length
        then some (if 0 < hist.getD (hist.length - 6) 0
          then (hist.getD (hist.length - 1) 0 - hist.getD (hist.length - 6) 0)
            / hist.getD (hist.length - 6) 0 * 100 else 0)
        else none),
      (if 2 ≤ ytdHist.length
        then (if 0 < ytdHist.getD 0 0
          then some ((hist.getD (hist.length - 1) 0 - ytdHist.getD 0 0)
            / ytdHist.getD 0 0 * 100) else none)
        else none)⟩ := by
  unfold get_equity_data
  rw [if_neg h]

/-- Claim C5, counterexample: with a zero denominator the daily change is
reported as the computed number 0 (not "not available"), and the
central-bank change cell shows "No change" (again not "N/A"). -/
theorem zero_denominator_computed_cex :
    get_equity_data [0, 5] [] = some ⟨5, 0, none, none⟩ ∧
    cb_last_change [0, 5] = RateChange.noChange :=
  ⟨by decide, by decide⟩

/-- Claim C5, amended: the snapshot computations never raise (they are
total); a missing denominator (insufficient history) makes the week / YTD
metric not-available, but a zero (or negative) denominator yields the
sentinel number 0 for the daily and week changes (shown as "No change" in
the central-bank table) and not-available only for the YTD change. -/
theorem snapshot_denominator_policy (hist ytdHist rates : List ℚ) :
    (2 ≤ hist.length → hist.getD (hist.length - 2) 0 ≤ 0 →
      ∃ s, get_equity_data hist ytdHist = some s ∧ s.daily = 0) ∧
    (6 ≤ hist.length → hist.getD (hist.length - 6) 0 ≤ 0 →
      ∃ s, get_equity_data hist ytdHist = some s ∧ s.week = some 0) ∧
    (2 ≤ hist.length → 2 ≤ ytdHist.length → ytdHist.getD 0 0 ≤ 0 →
      ∃ s, get_equity_data hist ytdHist = some s ∧ s.ytd = none) ∧
    (2 ≤ rates.length → rates.getD (rates.length - 2) 0 = 0 →
      cb_last_change rates = RateChange.noChange) := by
  refine ⟨?_, ?_, ?_, ?_⟩
  · intro h1 h2
    rw [get_equity_data_eq _ _ (by omega)]
    refine ⟨_, rfl, ?_⟩
    dsimp only
    rw [if_neg (not_lt.mpr h2)]
  · intro h1 h2
    rw [get_equity_data_eq _ _ (by omega)]
    refine ⟨_, rfl, ?_⟩
    dsimp only
    rw [if_pos h1, if_neg (not_lt.mpr h2)]
  · intro h1 h2 h3
    rw [get_equity_data_eq _ _ (by omega)]
    refine ⟨_, rfl, ?_⟩
    dsimp only
    rw [if_pos h2, if_neg (not_lt.mpr h3)]
  · intro h1 h2
    have heq : cb_last_change rates
        = (if (if rates.getD (rates.length - 2) 0 ≠ 0
              then (rates.getD (rates.length - 1) 0 - rates.getD (rates.length - 2) 0)
                / rates.getD (rates.length - 2) 0 * 100 else 0) ≠ 0
            then RateChange.pct (if rates.getD (rates.length - 2) 0 ≠ 0
              then (rates.getD (rates.length - 1) 0 - rates.getD (rates.length - 2) 0)
                / rates.getD (rates.length - 2) 0 * 100 else 0)
            else RateChange.noChange) := by
      unfold cb_last_change
      rw [if_neg (by omega)]
    rw [heq,
      if_neg (show ¬ rates.getD (rates.length - 2) 0 ≠ 0 from fun hn => hn h2),
      if_neg (by norm_num)]

/-- Witness for the amended C5 on concrete series. -/
theorem snapshot_denominator_policy_witness :
    (∃ s, get_equity_data [0, 5] [] = some s ∧ s.daily = 0) ∧
    (∃ s, get_equity_data [0, 1, 1, 1, 1, 1] [] = some s ∧ s.week = some 0) ∧
    (∃ s, get_equity_data [1, 2] [0, 3] = some s ∧ s.ytd = none) ∧
    cb_last_change [0, 5] = RateChange.noChange :=
  ⟨(snapshot_denominator_policy [0, 5] [] []).1 (by decide) (by decide),
   (snapshot_denominator_policy [0, 1, 1, 1, 1, 1] [] []).2.1
      (by decide) (by decide),
   (snapshot_denominator_policy [1, 2] [0, 3] []).2.2.1
      (by decide) (by decide) (by decide),
   (snapshot_denominator_policy [] [] [0, 5]).2.2.2 (by decide) (by decide)⟩

/-- Claim C6, counterexample: with 6 observations but a non-positive
6-observations-ago value, the code reports week change 0 while the stated
formula gives (3 - (-2)) / (-2) * 100 = -250. -/
theorem week_nonpos_denominator_cex :
    get_equity_data [-2, 1, 1, 1, 1, 3] [] = some ⟨3, 200, some 0, none⟩ ∧
    ((3 : ℚ) - (-2)) / (-2) * 100 = -250 ∧ some (0 : ℚ) ≠ some (-250 : ℚ) := by
  refine ⟨?_, by norm_num, by norm_num⟩
  rw [get_equity_data_eq _ _ (by decide)]
  norm_num [List.getD]

/-- Claim C6, amended: with at least 6 observations AND a positive
6-observations-ago value, the week change equals
(last - value_6_obs_ago) / value_6_obs_ago * 100 (with a non-positive
denominator it is the sentinel 0); with fewer than 6 observations it is
never a computed number: either no snapshot is produced (fewer than 2
points) or the week field is not-available. -/
theorem week_change_spec (hist ytdHist : List ℚ) :
    (6 ≤ hist.length → 0 < hist.getD (hist.length - 6) 0 →
      ∃ s, get_equity_data hist ytdHist = some s ∧
        s.week = some ((hist.getD (hist.length - 1) 0
          - hist.getD (hist.length - 6) 0)
            / hist.getD (hist.length - 6) 0 * 100)) ∧
    (hist.length < 6 →
      get_equity_data hist ytdHist = none ∨
        ∃ s, get_equity_data hist ytdHist = some s ∧ s.week = none) := by
  constructor
  · intro h1 h2
    rw [get_equity_data_eq _ _ (by omega)]
    refine ⟨_, rfl, ?_⟩
    dsimp only
    rw [if_pos h1, if_pos h2]
  · intro h1
    by_cases h2 : hist.length < 2
    · left
      unfold get_equity_data
      rw [if_pos h2]
    · right
      rw [get_equity_data_eq _ _ h2]
      refine ⟨_, rfl, ?_⟩
      dsimp only
      rw [if_neg (by omega)]

/-- Witness for the amended C6 on concrete series. -/
theorem week_change_spec_witness :
    (∃ s, get_equity_data [1, 1, 1, 1, 1, 3] [] = some s ∧ s.week = some 200) ∧
    (∃ s, get_equity_data [1, 2] [] = some s ∧ s.week = none) := by
  constructor
  · obtain ⟨s, hs, hw⟩ := (week_change_spec [1, 1, 1, 1, 1, 3] []).1
      (by decide) (by decide)
    refine ⟨s, hs, ?_⟩
    rw [hw]
    norm_num [List.getD]
  · rcases (week_change_spec [1, 2] []).2 (by decide) with h | h
    · rw [get_equity_data_eq _ _ (by decide)] at h
      exact Option.noConfusion h
    · exact h

/-- Claim C10: get_equity_data returns None whenever the fetched history is
empty or has fewer than 2 observations: no snapshot is ever produced from
zero or one data point. -/
theorem equity_absent_for_short_history (hist ytdHist : List ℚ)
    (h : hist.length < 2) : get_equity_data hist ytdHist = none := by
  unfold get_equity_data
  rw [if_pos h]

/-- Witness for C10 at empty and singleton histories. -/
theorem equity_absent_for_short_history_witness :
    get_equity_data [] [] = none ∧ get_equity_data [5] [2, 3] = none :=
  ⟨equity_absent_for_short_history [] [] (by decide),
   equity_absent_for_short_history [5] [2, 3] (by decide)⟩

/-! ### Claim theorems: Pearson correlation matrix -/

theorem zip_mul_comm (as : List ℚ) : ∀ bs : List ℚ,
    ((as.zip bs).map (fun p => p.1 * p.2)).sum
      = ((bs.zip as).map (fun p => p.1 * p.2)).sum := by
  induction as with
  | nil => intro bs; cases bs <;> simp
  | cons a arest ih =>
    intro bs
    cases bs with
    | nil => simp
    | cons b brest =>
      simp only [List.zip_cons_cons, List.map_cons, List.sum_cons, ih brest,
        mul_comm a b]

theorem scov_comm (xs ys : List ℚ) : scov xs ys = scov ys xs := by
  unfold scov
  exact zip_mul_comm _ _

theorem zip_self_mul (l : List ℚ) :
    ((l.zip l).map (fun p => p.1 * p.2)).sum = (l.map (fun d => d * d)).sum := by
  induction l with
  | nil => rfl
  | cons a rest ih =>
    simp only [List.zip_cons_cons, List.map_cons, List.sum_cons, ih]

theorem scov_self (xs : List ℚ) : scov xs xs = svar xs := by
  unfold scov svar
  exact zip_self_mul _

theorem svar_nonneg (xs : List ℚ) : 0 ≤ svar xs := by
  unfold svar
  apply List.sum_nonneg
  intro x hx
  obtain ⟨d, _, rfl⟩ := List.mem_map.mp hx
  exact mul_self_nonneg d

theorem pearson_symm (xs ys : List ℚ) : pearson xs ys = pearson ys xs := by
  unfold pearson
  by_cases hx : svar xs = 0 <;> by_cases hy : svar ys = 0
  · simp [hx, hy]
  · simp [hx, hy]
  · simp [hx, hy]
  · rw [if_neg (not_or.mpr ⟨hx, hy⟩), if_neg (not_or.mpr ⟨hy, hx⟩)]
    rw [scov_comm, mul_comm (Real.sqrt (svar xs : ℝ)) (Real.sqrt (svar ys : ℝ))]

theorem pearson_self (xs : List ℚ) :
    pearson xs xs = some 1 ↔ svar xs ≠ 0 := by
  constructor
  · intro h hz
    unfold pearson at h
    rw [if_pos (Or.inl hz)] at h
    exact Option.noConfusion h
  · intro hz
    unfold pearson
    rw [if_neg (not_or.mpr ⟨hz, hz⟩), scov_self]
    have hpos : (0 : ℝ) ≤ (svar xs : ℝ) := by exact_mod_cast svar_nonneg xs
    rw [Real.mul_self_sqrt hpos]
    have hne : ((svar xs : ℚ) : ℝ) ≠ 0 := by exact_mod_cast hz
    rw [div_self hne]

/-- Claim C7: the rendered correlation matrix is exactly symmetric in exact
arithmetic (hence within any tolerance, in particular 1e-9), and a diagonal
entry equals 1.0 exactly when the asset's aligned return column has nonzero
variance (with zero variance the float computation produces NaN, modelled
as none). -/
theorem corr_matrix_symm_diag (cols : List (String × Series)) (ds : List ℕ)
    (i j : ℕ) :
    corrMatrixEntry cols ds i j = corrMatrixEntry cols ds j i ∧
    (corrMatrixEntry cols ds i i = some 1 ↔
      svar (alignedColumn ds (cols.getD i ("", [])).2) ≠ 0) := by
  constructor
  · exact pearson_symm _ _
  · exact pearson_self _

/-! ### Claim theorems: correlation-tab control flow -/

/-- Claim C3, counterexample: with USD selected and exactly one surviving
counter asset after alignment, the tab still renders a (degenerate) 2-column
correlation matrix instead of reporting insufficient data, because the
"need at least 2" guard is skipped whenever USD is among the selected
currencies. -/
theorem single_survivor_usd_matrix_cex :
    (surviving ["USD", "EUR"]
        (fun c => if c == "EUR" then some [(0, 1), (1, 2), (2, 4)] else none)).length
      = 1 ∧
    (render_fx_corr ["USD", "EUR"]
        (fun c => if c == "EUR" then some [(0, 1), (1, 2), (2, 4)] else none)).isMatrix
      = true ∧
    (render_fx_corr ["USD", "EUR"]
        (fun c => if c == "EUR" then some [(0, 1), (1, 2), (2, 4)] else none)).columnCount
      = 2 := by
  refine ⟨by decide, by decide, by decide⟩

/-- Claim C3, amended: no correlation matrix is rendered exactly when fewer
than two currencies are selected, or no counter asset survives fetching, or
only one survives AND the base USD is not among the selected currencies;
with USD selected, a single surviving counter still yields a (degenerate)
matrix of USD-basket against that counter. -/
theorem insufficient_data_policy (selected : List String)
    (fetch : String → Option Series) :
    (render_fx_corr selected fetch).isMatrix = false ↔
      (selected.length ≤ 1 ∨ surviving selected fetch = [] ∨
        ((surviving selected fetch).length < 2 ∧ ¬ "USD" ∈ selected)) := by
  unfold render_fx_corr
  by_cases h1 : selected.length ≤ 1
  · simp [h1, FxResult.isMatrix]
  · rw [if_neg h1]
    by_cases h2 : (surviving selected fetch).isEmpty = true
    · have h2' : surviving selected fetch = [] := by simpa using h2
      rw [if_pos h2]
      simp [FxResult.isMatrix, h1, h2']
    · have h2' : surviving selected fetch ≠ [] := by simpa using h2
      rw [if_neg h2]
      by_cases h3 : ((surviving selected fetch).length < 2
          && !(selected.contains "USD")) = true
      · rw [if_pos h3]
        simp only [Bool.and_eq_true, Bool.not_eq_eq_eq_not, Bool.not_true,
          decide_eq_true_eq] at h3
        constructor
        · intro _
          right; right
          refine ⟨by simpa using h3.1, ?_⟩
          simpa using h3.2
        · intro _
          rfl
      · rw [if_neg h3]
        constructor
        · intro hc
          simp [FxResult.isMatrix] at hc
        · intro hor
          exfalso
          rcases hor with h | h | h
          · exact h1 h
          · exact h2' h
          · apply h3
            simp only [Bool.and_eq_true, decide_eq_true_eq]
            constructor
            · simpa using h.1
            · simpa using h.2

/-! ### Claim theorems: USD basket synthesis -/

theorem surviving_keys_ne_usd (selected : List String)
    (fetch : String → Option Series) :
    ∀ p ∈ surviving selected fetch, ¬ p.1 = "USD" := by
  intro p hp
  unfold surviving at hp
  obtain ⟨c, hc, hg⟩ := List.mem_filterMap.mp hp
  split at hg
  · exact Option.noConfusion hg
  · next hcu =>
    split at hg
    · exact Option.noConfusion hg
    · next s heq =>
      split at hg
      · have hg' : (if (pctChange s).isEmpty = true then none
            else some (c, pctChange s)) = some p := hg
        split at hg'
        · exact Option.noConfusion hg'
        · have hpc : p = (c, pctChange s) := by
            injection hg' with h0
            exact h0.symm
          rw [hpc]
          intro hcc
          exact hcu (by simpa using hcc)
      · exact Option.noConfusion hg

theorem valAt_map_graph (g : ℕ → ℚ) (ds : List ℕ) (d : ℕ) (hd : d ∈ ds) :
    valAt (ds.map (fun x => (x, g x))) d = g d := by
  induction ds with
  | nil => simp at hd
  | cons x rest ih =>
    by_cases hx : x = d
    · subst hx
      unfold valAt
      rw [List.map_cons]
      rw [List.find?_cons_of_pos _ (by simp)]
      rfl
    · unfold valAt
      rw [List.map_cons, List.find?_cons_of_neg _ (by simpa using hx)]
      have hd' : d ∈ rest := by
        rcases List.mem_cons.mp hd with h | h
        · exact absurd h.symm hx
        · exact h
      exact ih hd'

theorem render_matrix_inv (selected : List String) (fetch : String → Option Series)
    (cols : List (String × Series)) (ds : List ℕ) (usd : Bool)
    (hres : render_fx_corr selected fetch = FxResult.matrix cols ds usd) :
    cols = selected.filterMap (fun c =>
        (((if selected.contains "USD" then
            surviving selected fetch ++ [("USD",
              (commonDates ((surviving selected fetch).map Prod.snd)).map
                (fun d => (d, basketAt ((surviving selected fetch).map Prod.snd) d)))]
          else surviving selected fetch)).find? (fun p => p.1 == c)).map
        (fun p => (c, p.2))) ∧
    ds = commonDates ((surviving selected fetch).map Prod.snd) ∧
    usd = selected.contains "USD" := by
  unfold render_fx_corr at hres
  dsimp only at hres
  by_cases h1 : selected.length ≤ 1
  · rw [if_pos h1] at hres
    exact FxResult.noConfusion hres
  rw [if_neg h1] at hres
  by_cases h2 : (surviving selected fetch).isEmpty = true
  · rw [if_pos h2] at hres
    exact FxResult.noConfusion hres
  rw [if_neg h2] at hres
  by_cases h3 : (((surviving selected fetch).length < 2)
      && !(selected.contains "USD")) = true
  · rw [if_pos h3] at hres
    exact FxResult.noConfusion hres
  rw [if_neg h3] at hres
  injection hres with ha hb hc
  exact ⟨ha.symm, hb.symm, hc.symm⟩


/-- Claim C4: in any rendered correlation matrix, the value of the
synthesized USD column at every aligned date equals the cross-sectional
arithmetic mean, at that date, of the surviving counter return columns;
in particular for three series sharing a date with returns R1, R2, R3 the
basket value at that date is exactly (R1 + R2 + R3) / 3. -/
theorem usd_basket_mean :
    (∀ (selected : List String) (fetch : String → Option Series)
        (cols : List (String × Series)) (ds : List ℕ) (usd : Bool)
        (p : String × Series) (d : ℕ),
      render_fx_corr selected fetch = FxResult.matrix cols ds usd →
      p ∈ cols → p.1 = "USD" → d ∈ ds →
      valAt p.2 d = basketAt ((surviving selected fetch).map Prod.snd) d) ∧
    (∀ (s1 s2 s3 : Series) (d : ℕ) (r1 r2 r3 : ℚ),
      valAt s1 d = r1 → valAt s2 d = r2 → valAt s3 d = r3 →
      basketAt [s1, s2, s3] d = (r1 + r2 + r3) / 3) := by
  constructor
  · intro selected fetch cols ds usd p d hres hp husd hd
    obtain ⟨hcols, hds, husd2⟩ := render_matrix_inv selected fetch cols ds usd hres
    subst hcols
    subst hds
    obtain ⟨c, hc, hg⟩ := List.mem_filterMap.mp hp
    cases hfind : ((if selected.contains "USD" then
        surviving selected fetch ++ [("USD",
          (commonDates ((surviving selected fetch).map Prod.snd)).map
            (fun d => (d, basketAt ((surviving selected fetch).map Prod.snd) d)))]
      else surviving selected fetch)).find? (fun q => q.1 == c) with
    | none =>
      rw [hfind] at hg
      exact Option.noConfusion hg
    | some q =>
      rw [hfind] at hg
      have hpq : p = (c, q.2) := by
        injection hg with h0
        exact h0.symm
      have hcu : c = "USD" := by
        rw [hpq] at husd
        exact husd
      subst hcu
      by_cases hcon : selected.contains "USD" = true
      · rw [if_pos hcon] at hfind
        rw [List.find?_append] at hfind
        have hnone : (surviving selected fetch).find? (fun q => q.1 == "USD")
            = none := by
          rw [List.find?_eq_none]
          intro x hx
          simpa using surviving_keys_ne_usd selected fetch x hx
        rw [hnone] at hfind
        rw [Option.none_or] at hfind
        have hq : q = ("USD",
            (commonDates ((surviving selected fetch).map Prod.snd)).map
              (fun d => (d, basketAt ((surviving selected fetch).map Prod.snd) d))) := by
          rw [List.find?_cons_of_pos _ (by simp)] at hfind
          injection hfind with h0
          exact h0.symm
        rw [hpq, hq]
        exact valAt_map_graph _ _ d hd
      · rw [if_neg hcon] at hfind
        have hmem := List.mem_of_find?_eq_some hfind
        have hpred := List.find?_some hfind
        exact absurd (by simpa using hpred)
          (surviving_keys_ne_usd selected fetch q hmem)
  · intro s1 s2 s3 d r1 r2 r3 h1 h2 h3
    unfold basketAt
    simp only [List.map_cons, List.map_nil, List.sum_cons, List.sum_nil,
      h1, h2, h3, List.length_cons, List.length_nil]
    norm_num
    ring


/-- Witness for C4: a concrete two-counter pipeline run and a concrete
three-series mean. -/
theorem usd_basket_mean_witness :
    valAt ((commonDates ((surviving ["USD", "EUR", "GBP"]
          (fun c => if c == "EUR" then some [(0, 1), (1, 2)]
            else if c == "GBP" then some [(0, 1), (1, 2)] else none)).map Prod.snd)).map
        (fun x => (x, basketAt ((surviving ["USD", "EUR", "GBP"]
          (fun c => if c == "EUR" then some [(0, 1), (1, 2)]
            else if c == "GBP" then some [(0, 1), (1, 2)] else none)).map Prod.snd) x))) 1
      = basketAt ((surviving ["USD", "EUR", "GBP"]
          (fun c => if c == "EUR" then some [(0, 1), (1, 2)]
            else if c == "GBP" then some [(0, 1), (1, 2)] else none)).map Prod.snd) 1 ∧
    basketAt [[(0, 5)], [(0, 7)], [(0, 9)]] 0 = ((5 : ℚ) + 7 + 9) / 3 :=
  ⟨usd_basket_mean.1 ["USD", "EUR", "GBP"]
      (fun c => if c == "EUR" then some [(0, 1), (1, 2)]
        else if c == "GBP" then some [(0, 1), (1, 2)] else none)
      _ _ true _ 1 rfl (List.mem_cons_self _ _) rfl (by decide),
   usd_basket_mean.2 [(0, 5)] [(0, 7)] [(0, 9)] 0 5 7 9
      (by decide) (by decide) (by decide)⟩


end Dashboard
